import Mathlib

/-!
Verification of the Hindalco circular-price pipeline
(`hindalco_pipeline.py` / `hindalco_extractor.py`).

Shallow embedding conventions:
* Python `datetime.date` values are modelled as `ℤ`, counting days since
  1970-01-01 (day granularity is all the source uses: dates are compared,
  stepped by one day, and rendered; rendering is recovered from the day
  number through `civilFromDays` where the text of a date matters).
* Python floats are modelled as `ℚ`; `round(x, 3)` is modelled as
  round-half-to-even at 3 decimal places (`pyRound3`), matching CPython's
  behaviour on exact values.
* Python strings are modelled as `String`; the handful of `str` methods the
  source uses (`strip`, `replace(",", "")`, `upper`, `" ".join`) are
  implemented on the character list so that all definitions reduce in the
  kernel.
* Fallible code (`try`/`except`, `raise`) is modelled with `Option`/`Except`.
-/

namespace Hindalco

/-! ### String helpers (models of the Python `str` methods used) -/

/-- Model of `str.strip()` on a character list: drop whitespace at both ends. -/
def trimChars (cs : List Char) : List Char :=
  ((cs.dropWhile Char.isWhitespace).reverse.dropWhile Char.isWhitespace).reverse

/-- Model of `str.strip()`. -/
def trimStr (s : String) : String :=
  String.mk (trimChars s.toList)

/-- Model of `str.replace(",", "")`: remove every comma. -/
def stripCommas (s : String) : String :=
  String.mk (s.toList.filter (fun c => c ≠ ','))

/-- Model of `str.upper()` (ASCII case, which is all the source data uses). -/
def upperStr (s : String) : String :=
  String.mk (s.toList.map Char.toUpper)

/-- Interleave a separator between the elements of a list of character lists. -/
def joinChars (sep : List Char) : List (List Char) → List Char
  | [] => []
  | [c] => c
  | c :: cs => c ++ sep ++ joinChars sep cs

/-- Model of `" ".join(cells)`. -/
def joinSpace (cells : List String) : String :=
  String.mk (joinChars [' '] (cells.map String.toList))

/-- Substring test on character lists (model of Python's `x in s`). -/
def listContains (l pat : List Char) : Bool :=
  l.tails.any (fun t => pat.isPrefixOf t)

/-! ### Python `float` parsing and `round`, over `ℚ`

`divide_thousands` calls `float(s)` inside `try: ... except ValueError`.
`pyFloat?` models the finite-literal part of `float`'s grammar
(sign, digits with an optional fraction part, optional exponent); inputs
outside this grammar yield `none`, which models the `ValueError` branch. -/

/-- Numeric value of a digit string (most significant digit first). -/
def natOfDigits (cs : List Char) : ℕ :=
  cs.foldl (fun a c => 10 * a + (c.toNat - 48)) 0

/-- Split a character list at every occurrence of `sep`. -/
def splitChar (sep : Char) : List Char → List (List Char)
  | [] => [[]]
  | c :: cs =>
    match splitChar sep cs with
    | [] => [[]]
    | g :: gs => if c = sep then [] :: g :: gs else (c :: g) :: gs

/-- Consume an optional leading sign; returns `(isNegative, rest)`. -/
def takeSign : List Char → Bool × List Char
  | '+' :: rest => (false, rest)
  | '-' :: rest => (true, rest)
  | cs => (false, cs)

/-- Parse `digits`, `digits.digits`, `digits.` or `.digits` as a nonnegative
rational.  Values are built with `mkRat` (instead of `+`, `/` on `ℚ`) so that
they reduce inside the kernel; `mkRat_eq_div` recovers the usual form. -/
def parseMantissa (cs : List Char) : Option ℚ :=
  match splitChar '.' cs with
  | [ip] =>
    if ip ≠ [] ∧ ip.all Char.isDigit then some (mkRat (natOfDigits ip) 1) else none
  | [ip, fp] =>
    if (ip ≠ [] ∨ fp ≠ []) ∧ ip.all Char.isDigit ∧ fp.all Char.isDigit then
      some (mkRat (natOfDigits ip * 10 ^ fp.length + natOfDigits fp) (10 ^ fp.length))
    else none
  | _ => none

/-- Parse a (signed) decimal exponent. -/
def parseExponent (cs : List Char) : Option ℤ :=
  let sr := takeSign cs
  if sr.2 ≠ [] ∧ sr.2.all Char.isDigit then
    some (if sr.1 then -(natOfDigits sr.2 : ℤ) else (natOfDigits sr.2 : ℤ))
  else none

/-- Multiply a rational by `10 ^ e` (for an integer `e`), via `mkRat`. -/
def scalePow10 (q : ℚ) (e : ℤ) : ℚ :=
  if 0 ≤ e then mkRat (q.num * 10 ^ e.toNat) q.den
  else mkRat q.num (q.den * 10 ^ (-e).toNat)

/-- Model of Python `float(s)` on finite decimal literals (no `inf`/`nan`,
which have no rational value and never arise from the source data). -/
def pyFloat? (s : String) : Option ℚ :=
  let sr := takeSign s.toList
  match splitChar 'e' (sr.2.map Char.toLower) with
  | [m] => (parseMantissa m).map (fun q => if sr.1 then -q else q)
  | [m, ex] =>
    match parseMantissa m, parseExponent ex with
    | some q, some e => some (if sr.1 then -(scalePow10 q e) else scalePow10 q e)
    | _, _ => none
  | _ => none

/-- Round-half-to-even to an integer (CPython's `round` tie-breaking),
computed on the numerator and denominator so that it reduces in the kernel:
`f` is the floor of `q` and `rem / den` its fractional part, so comparing
`2 * rem` with `den` compares the fractional part with `1 / 2`. -/
def roundHalfEven (q : ℚ) : ℤ :=
  let d : ℤ := q.den
  let f := q.num.fdiv d
  let rem := q.num - f * d
  if 2 * rem < d then f
  else if d < 2 * rem then f + 1
  else if f % 2 = 0 then f else f + 1

/-- Multiplication of a rational by `1000`, via `mkRat` (kernel-reducible). -/
def mul1000 (q : ℚ) : ℚ :=
  mkRat (q.num * 1000) q.den

/-- Division of a rational by `1000`, via `mkRat` (kernel-reducible). -/
def div1000 (q : ℚ) : ℚ :=
  mkRat q.num (q.den * 1000)

/-- Model of Python `round(x, 3)`. -/
def pyRound3 (q : ℚ) : ℚ :=
  div1000 (mkRat (roundHalfEven (mul1000 q)) 1)

/-- Source: `divide_thousands` (`hindalco_pipeline.py` lines 208-215).

    def divide_thousands(x):
        s = str(x).replace(",", "").strip()
        if not s: return None
        try: return round(float(s) / 1000.0, 3)
        except ValueError: return None
-/
def divide_thousands (x : String) : Option ℚ :=
  let s := trimStr (stripCommas x)
  if s = "" then none
  else
    match pyFloat? s with
    | none => none
    | some v => some (pyRound3 (div1000 v))

/-! ### Calendar rendering

Dates are day numbers (days since 1970-01-01, `ℤ`).  `civilFromDays` recovers
the proleptic-Gregorian `(year, month, day)` triple of a day number (standard
era-based civil-calendar algorithm, on truncating integer division, which is
what `ℤ`'s `/` and `%` provide). -/

/-- Gregorian `(year, month, day)` of a day number. -/
def civilFromDays (z0 : ℤ) : ℤ × ℤ × ℤ :=
  let z := z0 + 719468
  let era := (if 0 ≤ z then z else z - 146096) / 146097
  let doe := z - era * 146097
  let yoe := (doe - doe / 1460 + doe / 36524 - doe / 146096) / 365
  let y := yoe + era * 400
  let doy := doe - (365 * yoe + yoe / 4 - yoe / 100)
  let mp := (5 * doy + 2) / 153
  let d := doy - (153 * mp + 2) / 5 + 1
  let m := mp + (if mp < 10 then 3 else -9)
  (y + (if m ≤ 2 then 1 else 0), m, d)

/-- Source: `_month_name` (`hindalco_pipeline.py` lines 90-94). -/
def monthNameOf (m : ℤ) : String :=
  (["january", "february", "march", "april", "may", "june", "july", "august",
    "september", "october", "november", "december"]).getD (m - 1).toNat "?"

/-- Two-digit zero-padded day, model of the Python format `f"{day:02d}"`. -/
def pad2 (n : ℤ) : String :=
  if n < 10 then "0" ++ toString n else toString n

/-- Source: `guess_hindalco_pdf_url` (`hindalco_pipeline.py` lines 97-102):
synthesize the canonical circular URL from the circular date. -/
def guess_hindalco_pdf_url (cdate : ℤ) : String :=
  let c := civilFromDays cdate
  "https://www.hindalco.com/Upload/PDF/primary-ready-reckoner-" ++ pad2 c.2.2 ++
    "-" ++ monthNameOf c.2.1 ++ "-" ++ toString c.1 ++ ".pdf"

/-! ### Data model -/

/-- A circular event, the Python event dict
`{"desc": ..., "grade": ..., "price": ..., "cdate": ..., "clink": ...}`.
`price` is `none` for Python `None`. -/
structure Event where
  desc : String
  grade : String
  price : Option ℚ
  cdate : ℤ
  clink : String
deriving DecidableEq, Repr

instance : Inhabited Event :=
  ⟨⟨"", "", none, 0, ""⟩⟩

/-- One row of the daily table.  `date` and `circularDate` carry the day
numbers that the source renders as `dd-mm-YYYY` / `dd.mm.YYYY` strings
(both renderings are injective in the date, so the day number is kept). -/
structure DailyRow where
  date : ℤ
  desc : String
  grade : String
  price : Option ℚ
  circularDate : ℤ
  clink : String
deriving DecidableEq, Repr

/-- Comparison key used by every `events.sort(key=lambda e: e["cdate"])`. -/
def eventLe (a b : Event) : Prop :=
  a.cdate ≤ b.cdate

instance : DecidableRel eventLe := fun a b => Int.decLe a.cdate b.cdate

instance : IsTotal Event eventLe :=
  ⟨fun a b => Int.le_total a.cdate b.cdate⟩

instance : IsTrans Event eventLe :=
  ⟨fun _ _ _ hab hbc => le_trans hab hbc⟩

/-- Python's `list.sort` is a stable sort; `insertionSort` with a `≤` key is
stable, so it models it observably. -/
def sortEvents (l : List Event) : List Event :=
  l.insertionSort eventLe

/-- Source: the insert-or-replace step of `run_normal`
(`hindalco_pipeline.py` lines 516-519):

    events = [e for e in events if e["cdate"] != cdate]
    events.append(new_event)
    events.sort(key=lambda e: e["cdate"])
-/
def insert_or_replace (events : List Event) (ev : Event) : List Event :=
  sortEvents (events.filter (fun e => e.cdate ≠ ev.cdate) ++ [ev])

/-- Source: `ensure_event_link` (`hindalco_pipeline.py` lines 105-109). -/
def ensure_event_link (e : Event) : Event :=
  if e.clink = "" then { e with clink := guess_hindalco_pdf_url e.cdate } else e

/-! ### Manual overrides -/

/-- One row of the manual-overrides sheet, as produced by
`load_manual_overrides`: `price` is `none` when `pd.to_numeric` coerced the
cell to NaN, the string fields are `""` when absent. -/
structure Override where
  cdate : ℤ
  clink : String
  price : Option ℚ
  desc : String
  grade : String
deriving DecidableEq, Repr

/-- Insert-or-update of an insertion-ordered Python `dict` keyed by date:
an existing key keeps its position and gets the new value, a new key is
appended. -/
def dictInsert (k : ℤ) (v : Event) : List (ℤ × Event) → List (ℤ × Event)
  | [] => [(k, v)]
  | (k', v') :: rest =>
    if k' = k then (k', v) :: rest else (k', v') :: dictInsert k v rest

/-- Lookup in the date-keyed dict. -/
def dictGet? (k : ℤ) (l : List (ℤ × Event)) : Option Event :=
  (l.find? (fun p => p.1 = k)).map (·.2)

/-- The patch applied by `apply_overrides` when the override's date is
already present: each field is overwritten only when the override supplies a
truthy value (`if o.get("desc"): ...`, `if pd.notna(o.get("price")): ...`). -/
def patchEv (e : Event) (o : Override) : Event :=
  { desc := if o.desc ≠ "" then o.desc else e.desc
    grade := if o.grade ≠ "" then o.grade else e.grade
    price := match o.price with | some p => some p | none => e.price
    cdate := e.cdate
    clink := if o.clink ≠ "" then o.clink else e.clink }

/-- The minimal event `apply_overrides` creates when the override's date is
missing from the store. -/
def minimalEvent (o : Override) : Event :=
  { desc := o.desc
    grade := if o.grade = "" then "P1020" else o.grade
    price := o.price
    cdate := o.cdate
    clink := o.clink }

/-- One iteration of the `for o in overrides` loop of `apply_overrides`. -/
def overrideStep (bd : List (ℤ × Event)) (o : Override) : List (ℤ × Event) :=
  match dictGet? o.cdate bd with
  | none => dictInsert o.cdate (minimalEvent o) bd
  | some e => dictInsert o.cdate (patchEv e o) bd

/-- Source: `apply_overrides` (`hindalco_pipeline.py` lines 306-338). -/
def apply_overrides (events : List Event) (overrides : List Override) : List Event :=
  let bd := events.foldl (fun d e => dictInsert e.cdate e d) []
  let bd := overrides.foldl overrideStep bd
  sortEvents ((bd.map (·.2)).map ensure_event_link)

/-! ### Daily series builder -/

/-- The row emitted for day `d` from the governing event `c`
(`hindalco_pipeline.py` lines 419-426): `Grade` falls back to `"P1020"` for a
falsy (empty) grade, `Basic Price` is re-rounded to 3 decimals, the `Date`
and `Circular Date` day numbers stand for their `dd-mm-YYYY` / `dd.mm.YYYY`
renderings. -/
def mkRow (d : ℤ) (c : Event) : DailyRow :=
  { date := d
    desc := c.desc
    grade := if c.grade = "" then "P1020" else c.grade
    price := c.price.map pyRound3
    circularDate := c.cdate
    clink := c.clink }

/-- The `while idx + 1 < len(events) and events[idx + 1]["cdate"] <= d` loop:
`pending` is the list of events after the current one; the loop consumes the
pending events dated at or before `d` and returns the new pending list and
current event. -/
def advance (pending : List Event) (cur : Event) (d : ℤ) : List Event × Event :=
  match pending with
  | [] => ([], cur)
  | e :: rest => if e.cdate ≤ d then advance rest e d else (e :: rest, cur)

/-- The `for d in (start + timedelta(n) ...)` walk: emit one row per day,
for `n` days starting at day `d`. -/
def walkRows (pending : List Event) (cur : Event) (d : ℤ) : ℕ → List DailyRow
  | 0 => []
  | n + 1 =>
    let pc := advance pending cur d
    mkRow d pc.2 :: walkRows pc.1 pc.2 (d + 1) n

/-- The final presentation sort of the daily table: descending by date
(`df.sort_values(by="DateDT", ascending=False)`; the walk produces distinct
dates, so any descending sort gives the same list). -/
def sortRowsDesc (rows : List DailyRow) : List DailyRow :=
  rows.insertionSort (fun a b => b.date ≤ a.date)

/-- Source: `build_daily_from_events` (`hindalco_pipeline.py` lines 400-431).
`end_date` is the cutoff (the caller always passes `datetime.date.today()`).
An empty event list gives the empty table; otherwise the walk starts at the
earliest event's date, clamped down to the cutoff when it lies beyond it. -/
def build_daily_from_events (events : List Event) (end_date : ℤ) : List DailyRow :=
  match sortEvents events with
  | [] => []
  | e0 :: rest =>
    let start := if e0.cdate > end_date then end_date else e0.cdate
    sortRowsDesc (walkRows rest e0 start ((end_date - start).toNat + 1))

/-- The governing event of day `d` in the sorted event list `evs` whose head
is `e0`: the last event dated at or before `d`, defaulting to the head when
every event is later than `d`. -/
def govEvent (evs : List Event) (e0 : Event) (d : ℤ) : Event :=
  ((evs.filter (fun e => e.cdate ≤ d)).getLast?).getD e0

/-! ### Row extraction (table path)

`extract_target_row` (`hindalco_pipeline.py` lines 218-255) and
`extract_row_from_pdf` (`hindalco_extractor.py` lines 69-110) scan the PDF's
extracted tables row by row; the per-row logic below is the unit the claims
are about.  A raw table row is a list of optional cells. -/

/-- The required tokens (`must_have = ["P0610", "P1020", "EC GRADE"]`). -/
def must_have : List String :=
  ["P0610", "P1020", "EC GRADE"]

/-- `cells = [(c or "").strip() for c in row]` -/
def cellsOf (row : List (Option String)) : List String :=
  row.map (fun c => trimStr (c.getD ""))

/-- `line = " ".join(cells).upper()` with the
`all(x in line for x in must_have)` predicate. -/
def rowMatches (cells : List String) : Bool :=
  must_have.all (fun t => listContains (upperStr (joinSpace cells)).toList t.toList)

/-- Cell predicate `re.search(r"\d", c)`: contains at least one digit. -/
def hasDigit (c : String) : Bool :=
  c.toList.any Char.isDigit

/-- The price scan: walk the cells from the end, return the first with a
digit, comma-stripped (`for c in reversed(cells): if re.search(r"\d", c):
price = c.replace(",", "").strip(); break`), or `""` if none has a digit. -/
def priceOfCells (cells : List String) : String :=
  match cells.reverse.find? hasDigit with
  | some c => trimStr (stripCommas c)
  | none => ""

/-- One table row of `extract_target_row`: on a token match return
`(desc, price)` with `desc = " ".join(cells[:-1]).strip()`; otherwise the
row is not the target row. -/
def extract_from_table_row (row : List (Option String)) : Option (String × String) :=
  let cells := cellsOf row
  if rowMatches cells then
    some (trimStr (joinSpace cells.dropLast), priceOfCells cells)
  else none

/-! ### Run modes (driver control flow)

`run_normal` / `run_backfill` compose extraction with HTTP and file I/O.  The
embedding keeps their control flow and state transitions and treats one
downloaded document as a value carrying its parse results: `cdate?` is the
date recovered from the filename/URL, and `extract` is the outcome of
`extract_target_row` on its bytes (`Except.error` models the `RuntimeError`
raised when no row matches). -/

/-- A locally available PDF document, with the outcome of parsing it. -/
structure PDoc where
  name : String
  cdate? : Option ℤ
  extract : Except String (String × String)
deriving Repr

/-- State threaded through the backfill loop: the date-keyed event dict, the
processed-filenames set, and the added counter. -/
structure BackfillState where
  byDate : List (ℤ × Event)
  processed : List String
  added : ℕ
deriving DecidableEq, Repr

/-- Model of `set.add` on the processed set (kept as an ordered list). -/
def setAdd (s : List String) (x : String) : List String :=
  if x ∈ s then s else s ++ [x]

/-- One iteration of the `for pdf_path in pdfs` loop of `run_backfill`
(`hindalco_pipeline.py` lines 549-582).  The `try ... except Exception`
around the body catches an extraction failure and continues; an unparseable
price is skipped with `continue`. -/
def backfillDoc (st : BackfillState) (doc : PDoc) : BackfillState :=
  match doc.cdate? with
  | none => st
  | some cdate =>
    if doc.name ∈ st.processed ∧ (dictGet? cdate st.byDate).isSome then st
    else
      match doc.extract with
      | .error _ => st
      | .ok (desc, rawPrice) =>
        match divide_thousands rawPrice with
        | none => st
        | some price =>
          let link0 := match dictGet? cdate st.byDate with
                       | some e => e.clink
                       | none => ""
          let link := if link0 = "" then guess_hindalco_pdf_url cdate else link0
          { byDate := dictInsert cdate
              { desc := desc, grade := "P1020", price := some price,
                cdate := cdate, clink := link } st.byDate
            processed := setAdd st.processed doc.name
            added := st.added + 1 }

/-- Source: `run_backfill` (`hindalco_pipeline.py` lines 535-601), composed
from the loop above, the final re-sort, the override pass and the daily
rebuild.  Returns the daily table and the final loop state. -/
def run_backfill_core (pdfs : List PDoc) (events0 : List Event)
    (processed0 : List String) (overrides : List Override) (today : ℤ) :
    List DailyRow × BackfillState :=
  let st0 : BackfillState :=
    { byDate := events0.foldl (fun d e => dictInsert e.cdate e d) []
      processed := processed0
      added := 0 }
  let st := pdfs.foldl backfillDoc st0
  let events := ((st.byDate.map (·.2)).map ensure_event_link).insertionSort eventLe
  let events := if overrides ≠ [] then apply_overrides events overrides else events
  (build_daily_from_events events today, st)

/-- Source: `run_normal` (`hindalco_pipeline.py` lines 487-532).
`newDoc?` carries the downloaded document and its URL when the scraped URL
differs (normalized) from the last processed one, `none` otherwise.  The
`raise RuntimeError` on an unparseable price and the uncaught extraction
error are the `Except.error` outcomes. -/
def run_normal_core (events0 : List Event) (overrides : List Override)
    (newDoc? : Option (PDoc × String)) (today : ℤ) :
    Except String (List DailyRow × List Event) :=
  let events := if overrides ≠ [] then apply_overrides events0 overrides else events0
  match newDoc? with
  | none => .ok (build_daily_from_events events today, events)
  | some (doc, pdfUrl) =>
    match doc.extract with
    | .error msg => .error msg
    | .ok (desc, rawPrice) =>
      match divide_thousands rawPrice with
      | none => .error ("Could not parse numeric price: " ++ rawPrice)
      | some price =>
        let cdate := doc.cdate?.getD today
        let events' := insert_or_replace events
          { desc := desc, grade := "P1020", price := some price,
            cdate := cdate, clink := pdfUrl }
        .ok (build_daily_from_events events' today, events')

/-! ### Spec-modelled reference definitions and concrete sample data -/

/-- Modelled from the spec: remove the first element satisfying `p`. -/
def removeFirstMatch (p : String → Bool) : List String → List String
  | [] => []
  | x :: xs => if p x then xs else x :: removeFirstMatch p xs

/-- Modelled from the spec: the description formula claimed for the row
extractor, "the join of all cells except that price cell" — all cells with
the last digit-bearing one removed. -/
def descExceptPriceCell (cells : List String) : String :=
  trimStr (joinSpace ((removeFirstMatch hasDigit cells.reverse).reverse))

/-- Sample old event used to instantiate hypotheses of claim theorems. -/
def sampleOld : Event :=
  { desc := "OLD DESC", grade := "P1020", price := some (mkRat 481 2),
    cdate := 20301, clink := "https://example.com/old.pdf" }

/-- Sample replacement event on the same date as `sampleOld`. -/
def sampleNew : Event :=
  { desc := "NEW DESC", grade := "P1020", price := some 245,
    cdate := 20301, clink := "https://example.com/new.pdf" }

/-- A document whose row extraction raises (no matching row). -/
def docNoRow : PDoc :=
  { name := "20250807_bad.pdf", cdate? := some 20307,
    extract := .error "Could not find target row in: 20250807_bad.pdf" }

/-- A document whose extracted raw price does not parse. -/
def docBadPrice : PDoc :=
  { name := "20250807_na.pdf", cdate? := some 20307,
    extract := .ok ("1 EC GRADE P0610 P1020 ALUMINIUM WIRE ROD", "N/A") }

/-- An event with an empty source link. -/
def sampleLinkless : Event :=
  { desc := "1 EC GRADE P0610 P1020 ALUMINIUM WIRE ROD", grade := "P1020",
    price := some 245, cdate := 20307, clink := "" }

/-- An override for day 20307 that supplies no field at all. -/
def ovEmpty : Override :=
  { cdate := 20307, clink := "", price := none, desc := "", grade := "" }

/-! ### Sanity checks on the executable model -/

/-- The price normalizer on representative inputs. -/
lemma divide_thousands_checks :
    divide_thousands "245000" = some 245 ∧ divide_thousands "N/A" = none ∧
      divide_thousands " 2,45,000 " = some 245 ∧ divide_thousands "" = none ∧
      divide_thousands "240500" = some (mkRat 481 2) ∧
      divide_thousands "2.405e5" = some (mkRat 481 2) := by
  refine ⟨by decide, by decide, by decide, by decide, by decide, by decide⟩

/-- The civil-calendar conversion agrees with Python's `datetime.date` on
reference days (1970-01-01, 2025-08-07, 2022-03-01). -/
lemma civilFromDays_checks :
    civilFromDays 0 = (1970, 1, 1) ∧ civilFromDays 20307 = (2025, 8, 7) ∧
      civilFromDays 19052 = (2022, 3, 1) ∧
      guess_hindalco_pdf_url 20307
        = "https://www.hindalco.com/Upload/PDF/primary-ready-reckoner-07-august-2025.pdf" := by
  refine ⟨by decide, by decide, by decide, by decide⟩

/-- The table-row extractor on the spec's unit scenario. -/
lemma extract_from_table_row_check :
    extract_from_table_row
        [some "1", some "EC GRADE P0610 P1020 ALUMINIUM WIRE ROD", some "245000"]
      = some ("1 EC GRADE P0610 P1020 ALUMINIUM WIRE ROD", "245000") := by
  decide

/-! ### Stable-sort lemmas for the insert-or-replace step -/

/-- Two `orderedInsert`s with distinct keys commute. -/
lemma orderedInsert_comm (a e : Event) (h : a.cdate ≠ e.cdate) :
    ∀ l : List Event,
      List.orderedInsert eventLe a (List.orderedInsert eventLe e l)
        = List.orderedInsert eventLe e (List.orderedInsert eventLe a l) := by
  intro l
  induction l with
  | nil =>
    simp only [List.orderedInsert, eventLe]
    split_ifs <;> first | rfl | omega
  | cons b t ih =>
    simp only [List.orderedInsert, eventLe]
    split_ifs <;>
      first
        | rfl
        | omega
        | (simp only [List.orderedInsert, eventLe]
           rw [ih]
           split_ifs <;> first | rfl | omega)
        | (simp only [List.orderedInsert, eventLe]
           split_ifs <;> first | rfl | omega)

/-- Appending a fresh-dated element before sorting is the same as inserting
it into the sorted list. -/
lemma insertionSort_append_singleton (e : Event) :
    ∀ t : List Event, (∀ x ∈ t, x.cdate ≠ e.cdate) →
      List.insertionSort eventLe (t ++ [e])
        = List.orderedInsert eventLe e (List.insertionSort eventLe t) := by
  intro t
  induction t with
  | nil => intro _; rfl
  | cons a t ih =>
    intro hx
    have ha : a.cdate ≠ e.cdate := hx a (by simp)
    have ht : ∀ x ∈ t, x.cdate ≠ e.cdate := fun x hxt => hx x (by simp [hxt])
    calc List.insertionSort eventLe (a :: t ++ [e])
        = List.orderedInsert eventLe a (List.insertionSort eventLe (t ++ [e])) := rfl
      _ = List.orderedInsert eventLe a
            (List.orderedInsert eventLe e (List.insertionSort eventLe t)) := by
            rw [ih ht]
      _ = List.orderedInsert eventLe e
            (List.orderedInsert eventLe a (List.insertionSort eventLe t)) :=
            orderedInsert_comm a e ha _
      _ = List.orderedInsert eventLe e (List.insertionSort eventLe (a :: t)) := rfl

/-- Filtering away the inserted element's date undoes an `orderedInsert`
into a list whose members all survive the filter. -/
lemma filter_orderedInsert_ne (e : Event) (p : Event → Bool) (hpe : p e = false) :
    ∀ l : List Event, (∀ x ∈ l, p x = true) →
      (List.orderedInsert eventLe e l).filter p = l := by
  intro l
  induction l with
  | nil => intro _; simp [List.orderedInsert, hpe]
  | cons b t ih =>
    intro hx
    have hb : p b = true := hx b (by simp)
    have ht : ∀ x ∈ t, p x = true := fun x hxt => hx x (by simp [hxt])
    by_cases hle : eventLe e b
    · simp [List.orderedInsert, hle, hpe, hb, List.filter_eq_self.mpr hx]
    · simp [List.orderedInsert, hle, hb, ih ht]

/-- C3: performing the insert-or-replace step of `run_normal` twice with
the same event yields the same event list as performing it once (idempotent
insert). -/
theorem insert_or_replace_idempotent (events : List Event) (ev : Event) :
    insert_or_replace (insert_or_replace events ev) ev = insert_or_replace events ev := by
  set p : Event → Bool := fun e => decide (e.cdate ≠ ev.cdate) with hp
  have hpe : p ev = false := by simp [hp]
  set t := events.filter p with htdef
  have htne : ∀ x ∈ t, x.cdate ≠ ev.cdate := by
    intro x hxt
    have := List.of_mem_filter hxt
    simpa [hp] using this
  have h1 : insert_or_replace events ev
      = List.orderedInsert eventLe ev (List.insertionSort eventLe t) :=
    insertionSort_append_singleton ev t htne
  have hsortmem : ∀ x ∈ List.insertionSort eventLe t, p x = true := by
    intro x hx
    have hxmem : x ∈ t := (List.perm_insertionSort eventLe t).mem_iff.mp hx
    simpa [hp] using htne x hxmem
  have h2 : (insert_or_replace events ev).filter p = List.insertionSort eventLe t := by
    rw [h1]
    exact filter_orderedInsert_ne ev p hpe _ hsortmem
  have hsorted : List.Sorted eventLe (List.insertionSort eventLe t) :=
    List.sorted_insertionSort eventLe t
  have hsortmem' : ∀ x ∈ List.insertionSort eventLe t, x.cdate ≠ ev.cdate := by
    intro x hx
    exact htne x ((List.perm_insertionSort eventLe t).mem_iff.mp hx)
  calc insert_or_replace (insert_or_replace events ev) ev
      = List.insertionSort eventLe (List.insertionSort eventLe t ++ [ev]) := by
        rw [insert_or_replace, h2]; rfl
    _ = List.orderedInsert eventLe ev
          (List.insertionSort eventLe (List.insertionSort eventLe t)) :=
        insertionSort_append_singleton ev _ hsortmem'
    _ = List.orderedInsert eventLe ev (List.insertionSort eventLe t) := by
        rw [hsorted.insertionSort_eq]
    _ = insert_or_replace events ev := h1.symm

/-- C4: after the insert-or-replace step on a store containing an event
dated `ev.cdate`, the store holds exactly one event with that date, that
event is the new one (so every field equals the new event's field), and
uniqueness of dates is preserved. -/
theorem insert_or_replace_replaces (events : List Event) (ev e : Event)
    (_he : e ∈ events) (_hed : e.cdate = ev.cdate)
    (hnd : (events.map Event.cdate).Nodup) :
    (∀ x ∈ insert_or_replace events ev, x.cdate = ev.cdate → x = ev) ∧
      (insert_or_replace events ev).countP (fun x => decide (x.cdate = ev.cdate)) = 1 ∧
      ((insert_or_replace events ev).map Event.cdate).Nodup := by
  set p : Event → Bool := fun e => decide (e.cdate ≠ ev.cdate) with hp
  set t := events.filter p with htdef
  have htne : ∀ x ∈ t, x.cdate ≠ ev.cdate := by
    intro x hxt
    simpa [hp] using List.of_mem_filter hxt
  have hperm : List.Perm (insert_or_replace events ev) (t ++ [ev]) :=
    List.perm_insertionSort eventLe (t ++ [ev])
  refine ⟨?_, ?_, ?_⟩
  · intro x hx hxd
    have hx' : x ∈ t ++ [ev] := hperm.mem_iff.mp hx
    rcases List.mem_append.mp hx' with hxt | hxe
    · exact absurd hxd (htne x hxt)
    · simpa using hxe
  · rw [hperm.countP_eq]
    rw [List.countP_append]
    have h0 : t.countP (fun x => decide (x.cdate = ev.cdate)) = 0 := by
      rw [List.countP_eq_zero]
      intro x hxt
      simpa using htne x hxt
    simp [h0]
  · have hmap : List.Perm ((insert_or_replace events ev).map Event.cdate)
        (t.map Event.cdate ++ [ev.cdate]) := by
      simpa using hperm.map Event.cdate
    refine hmap.symm.nodup ?_
    have hsub : List.Sublist (t.map Event.cdate) (events.map Event.cdate) :=
      (List.filter_sublist events).map Event.cdate
    have hndt : (t.map Event.cdate).Nodup := hnd.sublist hsub
    have hnotin : ev.cdate ∉ t.map Event.cdate := by
      intro hmem
      rcases List.mem_map.mp hmem with ⟨x, hxt, hxd⟩
      exact htne x hxt hxd
    simp [List.nodup_append, hndt, hnotin]

/-- Witness for C4 at a concrete one-event store. -/
theorem insert_or_replace_replaces_witness :
    (sampleOld ∈ [sampleOld] ∧ sampleOld.cdate = sampleNew.cdate ∧
        ([sampleOld].map Event.cdate).Nodup) ∧
      ((∀ x ∈ insert_or_replace [sampleOld] sampleNew, x.cdate = sampleNew.cdate → x = sampleNew) ∧
        (insert_or_replace [sampleOld] sampleNew).countP
            (fun x => decide (x.cdate = sampleNew.cdate)) = 1 ∧
        ((insert_or_replace [sampleOld] sampleNew).map Event.cdate).Nodup) :=
  ⟨⟨by decide, by decide, by decide⟩,
    insert_or_replace_replaces [sampleOld] sampleNew sampleOld (by decide) (by decide) (by decide)⟩

/-! ### Characterising the daily walk

The imperative walk of `build_daily_from_events` keeps a cursor into the
sorted event list.  The invariant carried below: the sorted list splits as
`pre ++ cur :: pending`, and either nothing has been consumed yet
(`pre = []`, `cur` is the head) or everything at or before the cursor is
dated `≤ d`.  Under it, the current event after `advance` is exactly
`govEvent`: the last event dated `≤ d`, or the head when there is none. -/

/-- Simp lemmas for the emitted row's fields. -/
@[simp] lemma mkRow_date (d : ℤ) (c : Event) : (mkRow d c).date = d := rfl

@[simp] lemma mkRow_desc (d : ℤ) (c : Event) : (mkRow d c).desc = c.desc := rfl

@[simp] lemma mkRow_grade (d : ℤ) (c : Event) :
    (mkRow d c).grade = if c.grade = "" then "P1020" else c.grade := rfl

@[simp] lemma mkRow_price (d : ℤ) (c : Event) :
    (mkRow d c).price = c.price.map pyRound3 := rfl

@[simp] lemma mkRow_circularDate (d : ℤ) (c : Event) :
    (mkRow d c).circularDate = c.cdate := rfl

@[simp] lemma mkRow_clink (d : ℤ) (c : Event) : (mkRow d c).clink = c.clink := rfl

/-- When everything after the cursor is dated after `d`, the governing event
of `d` is the cursor. -/
lemma govEvent_eq_cur (evs : List Event) (e0 : Event) (d : ℤ)
    (h0 : evs.head? = some e0) (pre : List Event) (cur : Event) (tl : List Event)
    (heq : evs = (pre ++ [cur]) ++ tl) (htl : ∀ x ∈ tl, d < x.cdate)
    (hinv : pre = [] ∨ ∀ x ∈ pre ++ [cur], x.cdate ≤ d) :
    govEvent evs e0 d = cur := by
  have htlnil : tl.filter (fun e => decide (e.cdate ≤ d)) = [] := by
    rw [List.filter_eq_nil_iff]
    intro x hx
    simpa using not_le.mpr (htl x hx)
  rcases hinv with hpre | hall
  · subst hpre
    have he0 : e0 = cur := by
      rw [heq] at h0
      simpa using h0.symm
    subst he0
    rw [govEvent, heq, List.filter_append, htlnil, List.append_nil]
    by_cases hcd : e0.cdate ≤ d
    · simp [hcd]
    · simp [hcd]
  · have hfil : (pre ++ [cur]).filter (fun e => decide (e.cdate ≤ d)) = pre ++ [cur] := by
      rw [List.filter_eq_self]
      intro x hx
      simpa using hall x hx
    rw [govEvent, heq, List.filter_append, htlnil, List.append_nil, hfil,
      List.getLast?_concat]
    rfl

/-- Specification of `advance`: it preserves the cursor invariant, leaves
only events dated after `d` pending, and lands on the governing event. -/
lemma advance_spec (evs : List Event) (e0 : Event) (h0 : evs.head? = some e0)
    (hs : List.Sorted eventLe evs) :
    ∀ (pending : List Event) (cur : Event) (d : ℤ) (pre : List Event),
      evs = pre ++ cur :: pending →
      (pre = [] ∨ ∀ x ∈ pre ++ [cur], x.cdate ≤ d) →
      ∃ pre', evs = pre' ++ (advance pending cur d).2 :: (advance pending cur d).1 ∧
        (pre' = [] ∨ ∀ x ∈ pre' ++ [(advance pending cur d).2], x.cdate ≤ d) ∧
        (∀ x ∈ (advance pending cur d).1, d < x.cdate) ∧
        (advance pending cur d).2 = govEvent evs e0 d := by
  intro pending
  induction pending with
  | nil =>
    intro cur d pre heq hinv
    refine ⟨pre, by simpa using heq, hinv, by simp [advance], ?_⟩
    simp only [advance]
    exact (govEvent_eq_cur evs e0 d h0 pre cur [] (by simpa using heq) (by simp) hinv).symm
  | cons b rest ih =>
    intro cur d pre heq hinv
    by_cases hble : b.cdate ≤ d
    · have hadv : advance (b :: rest) cur d = advance rest b d := by
        simp [advance, hble]
      have hpair : List.Sorted eventLe (cur :: b :: rest) := by
        refine hs.sublist ?_
        rw [heq]
        exact List.sublist_append_right pre _
      have hcurb : cur.cdate ≤ d := by
        rcases hinv with hpre | hall
        · exact le_trans (List.rel_of_sorted_cons hpair b (by simp)) hble
        · exact hall cur (by simp)
      have heq' : evs = (pre ++ [cur]) ++ b :: rest := by
        simpa using heq
      have hinv' : pre ++ [cur] = [] ∨ ∀ x ∈ (pre ++ [cur]) ++ [b], x.cdate ≤ d := by
        right
        intro x hx
        rcases List.mem_append.mp hx with hx1 | hx2
        · rcases List.mem_append.mp hx1 with hx3 | hx4
          · rcases hinv with hpre | hall
            · subst hpre; simp at hx3
            · exact hall x (List.mem_append.mpr (Or.inl hx3))
          · have : x = cur := by simpa using hx4
            exact this ▸ hcurb
        · have : x = b := by simpa using hx2
          exact this ▸ hble
      rw [hadv]
      exact ih b d (pre ++ [cur]) heq' hinv'
    · have hadv : advance (b :: rest) cur d = (b :: rest, cur) := by
        simp [advance, hble]
      have hrest : ∀ x ∈ rest, b.cdate ≤ x.cdate := by
        have hsub : List.Sublist (b :: rest) evs := by
          rw [heq]
          exact (List.sublist_cons_self cur (b :: rest)).trans
            (List.sublist_append_right pre (cur :: b :: rest))
        have hpair : List.Sorted eventLe (b :: rest) := hs.sublist hsub
        exact fun x hx => List.rel_of_sorted_cons hpair x hx
      have htl : ∀ x ∈ b :: rest, d < x.cdate := by
        intro x hx
        rcases List.mem_cons.mp hx with hxb | hxr
        · subst hxb; omega
        · exact lt_of_lt_of_le (by omega) (hrest x hxr)
      refine ⟨pre, by simpa [hadv] using heq, by simpa [hadv] using hinv,
        by simpa [hadv] using htl, ?_⟩
      rw [hadv]
      exact (govEvent_eq_cur evs e0 d h0 pre cur (b :: rest)
        (by simpa using heq) htl hinv).symm

/-- The walk emits, for each of the `n` days starting at `d`, the row built
from that day's governing event. -/
lemma walkRows_eq (evs : List Event) (e0 : Event) (h0 : evs.head? = some e0)
    (hs : List.Sorted eventLe evs) :
    ∀ (n : ℕ) (pending : List Event) (cur : Event) (d : ℤ) (pre : List Event),
      evs = pre ++ cur :: pending →
      (pre = [] ∨ ∀ x ∈ pre ++ [cur], x.cdate ≤ d) →
      walkRows pending cur d n
        = (List.range n).map
            (fun (k : ℕ) => mkRow (d + (k : ℤ)) (govEvent evs e0 (d + (k : ℤ)))) := by
  intro n
  induction n with
  | zero => intro pending cur d pre _ _; simp [walkRows]
  | succ n ih =>
    intro pending cur d pre heq hinv
    obtain ⟨pre', heq', hinv', _hgt', hgov⟩ := advance_spec evs e0 h0 hs pending cur d pre heq hinv
    have hinv'' : pre' = [] ∨ ∀ x ∈ pre' ++ [(advance pending cur d).2], x.cdate ≤ d + 1 := by
      rcases hinv' with hpre | hall
      · exact Or.inl hpre
      · exact Or.inr fun x hx => le_trans (hall x hx) (by omega)
    have htail := ih (advance pending cur d).1 (advance pending cur d).2 (d + 1) pre' heq' hinv''
    have hhead : mkRow d (advance pending cur d).2
        = mkRow (d + ((0 : ℕ) : ℤ)) (govEvent evs e0 (d + ((0 : ℕ) : ℤ))) := by
      simp [hgov]
    calc walkRows pending cur d (n + 1)
        = mkRow d (advance pending cur d).2
            :: walkRows (advance pending cur d).1 (advance pending cur d).2 (d + 1) n := rfl
      _ = mkRow (d + ((0 : ℕ) : ℤ)) (govEvent evs e0 (d + ((0 : ℕ) : ℤ)))
            :: (List.range n).map
                (fun (k : ℕ) => mkRow ((d + 1) + (k : ℤ)) (govEvent evs e0 ((d + 1) + (k : ℤ)))) := by
          rw [hhead, htail]
      _ = (List.range (n + 1)).map
            (fun (k : ℕ) => mkRow (d + (k : ℤ)) (govEvent evs e0 (d + (k : ℤ)))) := by
          rw [List.range_succ_eq_map, List.map_cons, List.map_map]
          congr 1
          apply List.map_congr_left
          intro k _
          have harith : d + ((Nat.succ k : ℕ) : ℤ) = (d + 1) + (k : ℤ) := by
            push_cast; ring
          simp only [Function.comp]
          rw [harith]

/-- The daily table is the descending presentation sort of one governed row
per day, walking from the (clamped) start to the cutoff. -/
lemma build_daily_eq (events : List Event) (end_date start : ℤ) (e0 : Event)
    (rest : List Event) (hse : sortEvents events = e0 :: rest)
    (hstart : start = if e0.cdate > end_date then end_date else e0.cdate) :
    build_daily_from_events events end_date
      = sortRowsDesc ((List.range ((end_date - start).toNat + 1)).map
          (fun (k : ℕ) => mkRow (start + (k : ℤ))
            (govEvent (e0 :: rest) e0 (start + (k : ℤ))))) := by
  have hsorted : List.Sorted eventLe (e0 :: rest) := by
    rw [← hse]; exact List.sorted_insertionSort eventLe events
  have hwalk := walkRows_eq (e0 :: rest) e0 rfl hsorted
    ((end_date - start).toNat + 1) rest e0 start [] rfl (Or.inl rfl)
  simp only [build_daily_from_events, hse, ← hstart]
  rw [hwalk]

/-- Counting one day in a contiguous range of days. -/
lemma countP_range_shift (start d : ℤ) :
    ∀ n : ℕ, (List.range n).countP (fun (k : ℕ) => decide (start + (k : ℤ) = d))
      = if start ≤ d ∧ d < start + (n : ℤ) then 1 else 0 := by
  intro n
  induction n with
  | zero =>
    simp only [List.range_zero, List.countP_nil]
    split_ifs <;> omega
  | succ n ih =>
    rw [List.range_succ, List.countP_append, ih, List.countP_singleton]
    simp only [decide_eq_true_eq]
    split_ifs <;> omega

/-- C1: for a non-empty event list and a cutoff at or after the earliest
event's date, the daily table has exactly `cutoff - earliest + 1` rows, and
each calendar day in `[earliest, cutoff]` appears exactly once (no gaps, no
duplicates).  `e0` is the earliest event: the head of the sorted list. -/
theorem daily_table_gapless (events : List Event) (cutoff : ℤ) (e0 : Event)
    (rest : List Event) (hse : sortEvents events = e0 :: rest)
    (hle : e0.cdate ≤ cutoff) :
    (build_daily_from_events events cutoff).length = (cutoff - e0.cdate).toNat + 1 ∧
      ∀ d : ℤ, (build_daily_from_events events cutoff).countP (fun r => decide (r.date = d))
          = if e0.cdate ≤ d ∧ d ≤ cutoff then 1 else 0 := by
  have hstart : e0.cdate = if e0.cdate > cutoff then cutoff else e0.cdate := by
    rw [if_neg (not_lt.mpr hle)]
  have heq := build_daily_eq events cutoff e0.cdate e0 rest hse hstart
  have hperm : List.Perm (build_daily_from_events events cutoff)
      ((List.range ((cutoff - e0.cdate).toNat + 1)).map
        (fun (k : ℕ) => mkRow (e0.cdate + (k : ℤ))
          (govEvent (e0 :: rest) e0 (e0.cdate + (k : ℤ))))) := by
    rw [heq]
    exact List.perm_insertionSort _ _
  constructor
  · rw [hperm.length_eq, List.length_map, List.length_range]
  · intro d
    rw [hperm.countP_eq, List.countP_map]
    have hfun : ((fun r => decide (r.date = d)) ∘
        (fun (k : ℕ) => mkRow (e0.cdate + (k : ℤ))
          (govEvent (e0 :: rest) e0 (e0.cdate + (k : ℤ)))))
        = fun (k : ℕ) => decide (e0.cdate + (k : ℤ) = d) := by
      funext k
      simp [Function.comp]
    rw [hfun, countP_range_shift]
    split_ifs <;> omega

/-- Witness for C1: one event dated day 20301, cutoff 20303 — three rows,
days 20301, 20302 and 20303 once each. -/
theorem daily_table_gapless_witness :
    (sortEvents [sampleOld] = sampleOld :: [] ∧ sampleOld.cdate ≤ 20303) ∧
      ((build_daily_from_events [sampleOld] 20303).length
          = ((20303 : ℤ) - sampleOld.cdate).toNat + 1 ∧
        ∀ d : ℤ, (build_daily_from_events [sampleOld] 20303).countP
            (fun r => decide (r.date = d))
          = if sampleOld.cdate ≤ d ∧ d ≤ 20303 then 1 else 0) :=
  ⟨⟨by decide, by decide⟩,
    daily_table_gapless [sampleOld] 20303 sampleOld [] (by decide) (by decide)⟩

/-- C2: two rows of the daily table for consecutive days `d-1`, `d` with no
event dated `d` carry identical description, grade, price, circular date and
link (forward-fill continuity: each day is filled from the still-governing
event). -/
theorem daily_forward_fill (events : List Event) (cutoff : ℤ) (r r' : DailyRow)
    (hr : r ∈ build_daily_from_events events cutoff)
    (hr' : r' ∈ build_daily_from_events events cutoff)
    (hstep : r'.date = r.date + 1)
    (hnoev : ∀ e ∈ events, e.cdate ≠ r'.date) :
    r'.desc = r.desc ∧ r'.grade = r.grade ∧ r'.price = r.price ∧
      r'.circularDate = r.circularDate ∧ r'.clink = r.clink := by
  cases hse : sortEvents events with
  | nil =>
    rw [show build_daily_from_events events cutoff = [] by
      simp only [build_daily_from_events, hse]] at hr
    exact absurd hr (by simp)
  | cons e0 rest =>
    have heq := build_daily_eq events cutoff
      (if e0.cdate > cutoff then cutoff else e0.cdate) e0 rest hse rfl
    have hperm : List.Perm (build_daily_from_events events cutoff)
        ((List.range ((cutoff - (if e0.cdate > cutoff then cutoff else e0.cdate)).toNat + 1)).map
          (fun (k : ℕ) => mkRow ((if e0.cdate > cutoff then cutoff else e0.cdate) + (k : ℤ))
            (govEvent (e0 :: rest) e0
              ((if e0.cdate > cutoff then cutoff else e0.cdate) + (k : ℤ))))) := by
      rw [heq]
      exact List.perm_insertionSort _ _
    set start := if e0.cdate > cutoff then cutoff else e0.cdate with hstartdef
    obtain ⟨k, _, hkr⟩ := List.mem_map.mp (hperm.mem_iff.mp hr)
    obtain ⟨k', _, hkr'⟩ := List.mem_map.mp (hperm.mem_iff.mp hr')
    have hrd : r.date = start + (k : ℤ) := by rw [← hkr]; simp
    have hrd' : r'.date = start + (k' : ℤ) := by rw [← hkr']; simp
    have hgov : govEvent (e0 :: rest) e0 (start + (k' : ℤ))
        = govEvent (e0 :: rest) e0 (start + (k : ℤ)) := by
      have hfil : (e0 :: rest).filter (fun e => decide (e.cdate ≤ start + (k' : ℤ)))
          = (e0 :: rest).filter (fun e => decide (e.cdate ≤ start + (k : ℤ))) := by
        apply List.filter_congr
        intro x hx
        have hxev : x ∈ events := by
          have hx' : x ∈ sortEvents events := by rw [hse]; exact hx
          exact (List.perm_insertionSort eventLe events).mem_iff.mp hx'
        have hxne : x.cdate ≠ start + (k' : ℤ) := hrd' ▸ hnoev x hxev
        have hiff : (x.cdate ≤ start + (k' : ℤ)) ↔ (x.cdate ≤ start + (k : ℤ)) := by
          omega
        simp only [decide_eq_decide]
        exact hiff
      rw [govEvent, govEvent, hfil]
    refine ⟨?_, ?_, ?_, ?_, ?_⟩ <;> rw [← hkr, ← hkr', hgov] <;> simp

/-- Witness for C2: one event dated 20301, cutoff 20303; the rows for days
20302 and 20303 (no event dated 20303) are field-identical. -/
theorem daily_forward_fill_witness :
    (mkRow 20302 sampleOld ∈ build_daily_from_events [sampleOld] 20303 ∧
        mkRow 20303 sampleOld ∈ build_daily_from_events [sampleOld] 20303 ∧
        (mkRow 20303 sampleOld).date = (mkRow 20302 sampleOld).date + 1 ∧
        ∀ e ∈ [sampleOld], e.cdate ≠ (mkRow 20303 sampleOld).date) ∧
      ((mkRow 20303 sampleOld).desc = (mkRow 20302 sampleOld).desc ∧
        (mkRow 20303 sampleOld).grade = (mkRow 20302 sampleOld).grade ∧
        (mkRow 20303 sampleOld).price = (mkRow 20302 sampleOld).price ∧
        (mkRow 20303 sampleOld).circularDate = (mkRow 20302 sampleOld).circularDate ∧
        (mkRow 20303 sampleOld).clink = (mkRow 20302 sampleOld).clink) :=
  ⟨⟨by decide, by decide, by decide, by decide⟩,
    daily_forward_fill [sampleOld] 20303 (mkRow 20302 sampleOld) (mkRow 20303 sampleOld)
      (by decide) (by decide) (by decide) (by decide)⟩

/-- Head of the sorted event list is an event of the store. -/
lemma head_sortEvents_mem (events : List Event) (e0 : Event) (rest : List Event)
    (hse : sortEvents events = e0 :: rest) : e0 ∈ events := by
  have h : e0 ∈ sortEvents events := by rw [hse]; simp
  exact (List.perm_insertionSort eventLe events).mem_iff.mp h

/-- When every event is dated after the cutoff, the table is the single row
for the cutoff day, governed by the head of the sorted list. -/
lemma build_daily_all_future (events : List Event) (cutoff : ℤ) (e0 : Event)
    (rest : List Event) (hse : sortEvents events = e0 :: rest)
    (hafter : ∀ e ∈ events, cutoff < e.cdate) :
    build_daily_from_events events cutoff = [mkRow cutoff e0] := by
  have he0 : cutoff < e0.cdate := hafter e0 (head_sortEvents_mem events e0 rest hse)
  have hstart : cutoff = if e0.cdate > cutoff then cutoff else e0.cdate := by
    rw [if_pos he0]
  have heq := build_daily_eq events cutoff cutoff e0 rest hse hstart
  rw [heq]
  have hn : (cutoff - cutoff).toNat + 1 = 1 := by omega
  rw [hn, show List.range 1 = [0] from rfl]
  have hgov : govEvent (e0 :: rest) e0 cutoff = e0 := by
    rw [govEvent]
    have hfil : (e0 :: rest).filter (fun e => decide (e.cdate ≤ cutoff)) = [] := by
      rw [List.filter_eq_nil_iff]
      intro x hx
      have hxse : x ∈ sortEvents events := by rw [hse]; exact hx
      have hxev : x ∈ events := (List.perm_insertionSort eventLe events).mem_iff.mp hxse
      have := hafter x hxev
      simp only [decide_eq_true_eq]
      omega
    rw [hfil]
    rfl
  simp only [List.map_cons, List.map_nil, Nat.cast_zero, add_zero, hgov]
  simp [sortRowsDesc]

/-- C9: when the earliest event's date is strictly after the cutoff, the
walk start is clamped to the cutoff and the table is a single-day table
(exactly one row, dated the cutoff). -/
theorem daily_clamped_single_day (events : List Event) (cutoff : ℤ) (e0 : Event)
    (rest : List Event) (hse : sortEvents events = e0 :: rest)
    (hafter : ∀ e ∈ events, cutoff < e.cdate) :
    (build_daily_from_events events cutoff).length = 1 ∧
      ∀ r ∈ build_daily_from_events events cutoff, r.date = cutoff := by
  rw [build_daily_all_future events cutoff e0 rest hse hafter]
  refine ⟨rfl, ?_⟩
  intro r hr
  rw [List.mem_singleton.mp hr]
  simp

/-- Witness for C9: one event dated 20301, cutoff 20299 — one row. -/
theorem daily_clamped_single_day_witness :
    (sortEvents [sampleOld] = sampleOld :: [] ∧
        ∀ e ∈ [sampleOld], (20299 : ℤ) < e.cdate) ∧
      ((build_daily_from_events [sampleOld] 20299).length = 1 ∧
        ∀ r ∈ build_daily_from_events [sampleOld] 20299, r.date = 20299) :=
  ⟨⟨by decide, by decide⟩,
    daily_clamped_single_day [sampleOld] 20299 sampleOld [] (by decide) (by decide)⟩

/-- C10: when every event is dated strictly after the cutoff, the single
emitted row is dated the cutoff but copies description, grade, price,
circular date and link from the earliest (future-dated) event, so its
circular date is strictly later than its date — no event with
`effectiveDate ≤ date` exists in this case. -/
theorem daily_future_event_copied (events : List Event) (cutoff : ℤ) (e0 : Event)
    (rest : List Event) (hse : sortEvents events = e0 :: rest)
    (hafter : ∀ e ∈ events, cutoff < e.cdate) :
    build_daily_from_events events cutoff = [mkRow cutoff e0] ∧
      (mkRow cutoff e0).date = cutoff ∧
      (mkRow cutoff e0).desc = e0.desc ∧
      (mkRow cutoff e0).grade = (if e0.grade = "" then "P1020" else e0.grade) ∧
      (mkRow cutoff e0).price = e0.price.map pyRound3 ∧
      (mkRow cutoff e0).circularDate = e0.cdate ∧
      (mkRow cutoff e0).clink = e0.clink ∧
      (mkRow cutoff e0).date < (mkRow cutoff e0).circularDate := by
  refine ⟨build_daily_all_future events cutoff e0 rest hse hafter,
    rfl, rfl, rfl, rfl, rfl, rfl, ?_⟩
  simp only [mkRow_date, mkRow_circularDate]
  exact hafter e0 (head_sortEvents_mem events e0 rest hse)

/-- Witness for C10 at the same concrete store and cutoff. -/
theorem daily_future_event_copied_witness :
    (sortEvents [sampleOld] = sampleOld :: [] ∧
        ∀ e ∈ [sampleOld], (20299 : ℤ) < e.cdate) ∧
      (build_daily_from_events [sampleOld] 20299 = [mkRow 20299 sampleOld] ∧
        (mkRow 20299 sampleOld).date = 20299 ∧
        (mkRow 20299 sampleOld).desc = sampleOld.desc ∧
        (mkRow 20299 sampleOld).grade
          = (if sampleOld.grade = "" then "P1020" else sampleOld.grade) ∧
        (mkRow 20299 sampleOld).price = sampleOld.price.map pyRound3 ∧
        (mkRow 20299 sampleOld).circularDate = sampleOld.cdate ∧
        (mkRow 20299 sampleOld).clink = sampleOld.clink ∧
        (mkRow 20299 sampleOld).date < (mkRow 20299 sampleOld).circularDate) :=
  ⟨⟨by decide, by decide⟩,
    daily_future_event_copied [sampleOld] 20299 sampleOld [] (by decide) (by decide)⟩

/-! ### Price normalizer -/

/-- The kernel-friendly `div1000` is division by 1000. -/
lemma div1000_eq (q : ℚ) : div1000 q = q / 1000 := by
  rw [div1000, Rat.mkRat_eq_divInt, Rat.divInt_eq_div]
  push_cast
  rw [← div_div, Rat.num_div_den]

/-- C5: the price normalizer strips separators and whitespace, returns null
on an empty remainder, parses the remainder as a float and returns it
divided by 1000 and rounded to 3 decimals, returns null (never throws) on a
non-numeric remainder; `"245000"` normalizes to `245.000`, `"N/A"` to
null. -/
theorem divide_thousands_spec :
    (∀ s : String, trimStr (stripCommas s) = "" → divide_thousands s = none) ∧
      (∀ s : String, pyFloat? (trimStr (stripCommas s)) = none →
        divide_thousands s = none) ∧
      (∀ (s : String) (q : ℚ), trimStr (stripCommas s) ≠ "" →
        pyFloat? (trimStr (stripCommas s)) = some q →
        divide_thousands s = some (pyRound3 (q / 1000))) ∧
      divide_thousands "245000" = some 245 ∧
      divide_thousands "N/A" = none := by
  refine ⟨?_, ?_, ?_, by decide, by decide⟩
  · intro s h
    simp only [divide_thousands, h]
    rfl
  · intro s h
    simp only [divide_thousands, h]
    split_ifs <;> rfl
  · intro s q hne h
    simp only [divide_thousands, h, if_neg hne, div1000_eq]

/-- Witness for C5's three conditional clauses, at `" , "` (empty remainder),
`"N/A"` (non-numeric) and `"245000"` (numeric). -/
theorem divide_thousands_spec_witness :
    (trimStr (stripCommas " , ") = "" ∧ divide_thousands " , " = none) ∧
      (pyFloat? (trimStr (stripCommas "N/A")) = none ∧ divide_thousands "N/A" = none) ∧
      (trimStr (stripCommas "245000") ≠ "" ∧
        pyFloat? (trimStr (stripCommas "245000")) = some (mkRat 245000 1) ∧
        divide_thousands "245000" = some (pyRound3 (mkRat 245000 1 / 1000))) :=
  ⟨⟨by decide, divide_thousands_spec.1 " , " (by decide)⟩,
    ⟨by decide, divide_thousands_spec.2.1 "N/A" (by decide)⟩,
    ⟨by decide, by decide,
      divide_thousands_spec.2.2.1 "245000" (mkRat 245000 1) (by decide) (by decide)⟩⟩

/-! ### Row extractor -/

/-- Scanning a list from its end for the first hit is taking the last
element of the filtered list. -/
lemma find?_reverse_eq (p : String → Bool) :
    ∀ l : List String, l.reverse.find? p = (l.filter p).getLast? := by
  intro l
  induction l with
  | nil => rfl
  | cons x xs ih =>
    rw [List.reverse_cons, List.find?_append, ih, List.filter_cons]
    by_cases hx : p x = true
    · rw [if_pos hx]
      cases hfl : (xs.filter p).getLast? with
      | none =>
        have hnil : xs.filter p = [] := List.getLast?_eq_none_iff.mp hfl
        rw [hnil]
        simp [List.find?, hx]
      | some y =>
        cases hfl' : xs.filter p with
        | nil => rw [hfl'] at hfl; simp at hfl
        | cons z zs =>
          rw [hfl'] at hfl
          rw [List.getLast?_cons_cons, show ((some y).or (List.find? p [x])) = some y from rfl]
          exact hfl.symm
    · rw [if_neg hx]
      simp [List.find?, hx]

/-- C6 counterexample: on the matching row
`["1", "EC GRADE P0610 P1020 ALUMINIUM WIRE ROD", "245000", "PER MT"]` the
price cell is `"245000"` (the last cell has no digit), but the extractor's
description keeps the price cell and drops the last cell, differing from the
claim's "join of all cells except that price cell". -/
theorem extract_row_desc_counterexample :
    extract_from_table_row
        [some "1", some "EC GRADE P0610 P1020 ALUMINIUM WIRE ROD",
          some "245000", some "PER MT"]
      = some ("1 EC GRADE P0610 P1020 ALUMINIUM WIRE ROD 245000", "245000") ∧
      descExceptPriceCell (cellsOf
          [some "1", some "EC GRADE P0610 P1020 ALUMINIUM WIRE ROD",
            some "245000", some "PER MT"])
        = "1 EC GRADE P0610 P1020 ALUMINIUM WIRE ROD PER MT" ∧
      ("1 EC GRADE P0610 P1020 ALUMINIUM WIRE ROD 245000" : String)
        ≠ "1 EC GRADE P0610 P1020 ALUMINIUM WIRE ROD PER MT" :=
  ⟨by decide, by decide, by decide⟩

/-- C6 amended: on a matching row the price is the last cell containing a
digit (comma-stripped), and the description is the join of all cells except
the **last** cell; the claim's concrete scenario holds (there the price cell
is the last cell). -/
theorem extract_row_spec (row : List (Option String)) (c : String)
    (hm : rowMatches (cellsOf row) = true)
    (hc : ((cellsOf row).filter hasDigit).getLast? = some c) :
    extract_from_table_row row
      = some (trimStr (joinSpace (cellsOf row).dropLast), trimStr (stripCommas c)) := by
  simp only [extract_from_table_row, hm, if_true]
  have hprice : priceOfCells (cellsOf row) = trimStr (stripCommas c) := by
    rw [priceOfCells, find?_reverse_eq, hc]
  rw [hprice]

/-- Witness for C6's amended theorem at the spec's unit scenario. -/
theorem extract_row_spec_witness :
    (rowMatches (cellsOf
          [some "1", some "EC GRADE P0610 P1020 ALUMINIUM WIRE ROD", some "245000"]) = true ∧
      ((cellsOf [some "1", some "EC GRADE P0610 P1020 ALUMINIUM WIRE ROD",
          some "245000"]).filter hasDigit).getLast? = some "245000") ∧
      extract_from_table_row
          [some "1", some "EC GRADE P0610 P1020 ALUMINIUM WIRE ROD", some "245000"]
        = some (trimStr (joinSpace (cellsOf
            [some "1", some "EC GRADE P0610 P1020 ALUMINIUM WIRE ROD",
              some "245000"]).dropLast), trimStr (stripCommas "245000")) :=
  ⟨⟨by decide, by decide⟩,
    extract_row_spec
      [some "1", some "EC GRADE P0610 P1020 ALUMINIUM WIRE ROD", some "245000"]
      "245000" (by decide) (by decide)⟩

/-! ### Error-propagation policy of the run modes -/

/-- A document whose extraction or price normalization fails leaves the
backfill loop state untouched. -/
lemma backfillDoc_skip (st : BackfillState) (doc : PDoc)
    (h : (∃ msg, doc.extract = .error msg) ∨
      (∃ de raw, doc.extract = .ok (de, raw) ∧ divide_thousands raw = none)) :
    backfillDoc st doc = st := by
  cases hc : doc.cdate? with
  | none => simp [backfillDoc, hc]
  | some cdate =>
    rcases h with ⟨msg, he⟩ | ⟨de, raw, he, hdiv⟩
    · simp [backfillDoc, hc, he]
    · simp [backfillDoc, hc, he, hdiv]

/-- C7: a per-document extraction or price-normalization failure is
recovered locally in backfill mode — the document is skipped and the run
produces exactly what it produces without that document — while in normal
mode the same failure is escalated to a run-level error. -/
theorem per_document_failure_policy :
    (∀ (pre post : List PDoc) (doc : PDoc) (events0 : List Event)
        (processed0 : List String) (overrides : List Override) (today : ℤ),
        (∃ msg, doc.extract = .error msg) ∨
          (∃ de raw, doc.extract = .ok (de, raw) ∧ divide_thousands raw = none) →
        run_backfill_core (pre ++ doc :: post) events0 processed0 overrides today
          = run_backfill_core (pre ++ post) events0 processed0 overrides today) ∧
      (∀ (events0 : List Event) (overrides : List Override) (doc : PDoc)
          (url : String) (today : ℤ) (msg : String),
          doc.extract = .error msg →
          run_normal_core events0 overrides (some (doc, url)) today = .error msg) ∧
      (∀ (events0 : List Event) (overrides : List Override) (doc : PDoc)
          (url : String) (today : ℤ) (de raw : String),
          doc.extract = .ok (de, raw) → divide_thousands raw = none →
          run_normal_core events0 overrides (some (doc, url)) today
            = .error ("Could not parse numeric price: " ++ raw)) := by
  refine ⟨?_, ?_, ?_⟩
  · intro pre post doc events0 processed0 overrides today h
    have hfold : ∀ st : BackfillState,
        (pre ++ doc :: post).foldl backfillDoc st = (pre ++ post).foldl backfillDoc st := by
      intro st
      rw [List.foldl_append, List.foldl_append, List.foldl_cons, backfillDoc_skip _ doc h]
    rw [run_backfill_core, run_backfill_core, hfold]
  · intro events0 overrides doc url today msg he
    simp [run_normal_core, he]
  · intro events0 overrides doc url today de raw he hdiv
    simp [run_normal_core, he, hdiv]

/-- Witness for C7 at concrete documents: the failing document is skipped by
backfill (the run over `[docNoRow]` equals the run over `[]`), and both
failures are run-level errors in normal mode. -/
theorem per_document_failure_policy_witness :
    ((docNoRow.extract = .error "Could not find target row in: 20250807_bad.pdf") ∧
        run_backfill_core ([] ++ docNoRow :: []) [] [] [] 20307
          = run_backfill_core ([] ++ []) [] [] [] 20307) ∧
      run_normal_core [] [] (some (docNoRow, "u")) 20307
        = .error "Could not find target row in: 20250807_bad.pdf" ∧
      (docBadPrice.extract
          = .ok ("1 EC GRADE P0610 P1020 ALUMINIUM WIRE ROD", "N/A") ∧
        divide_thousands "N/A" = none ∧
        run_normal_core [] [] (some (docBadPrice, "u")) 20307
          = .error ("Could not parse numeric price: " ++ "N/A")) :=
  ⟨⟨rfl,
      per_document_failure_policy.1 [] [] docNoRow [] [] [] 20307
        (Or.inl ⟨"Could not find target row in: 20250807_bad.pdf", rfl⟩)⟩,
    per_document_failure_policy.2.1 [] [] docNoRow "u" 20307
      "Could not find target row in: 20250807_bad.pdf" rfl,
    ⟨rfl, by decide,
      per_document_failure_policy.2.2 [] [] docBadPrice "u" 20307
        "1 EC GRADE P0610 P1020 ALUMINIUM WIRE ROD" "N/A" rfl (by decide)⟩⟩

/-! ### Manual-override merge -/

/-- Inserting an absent key into the dict appends it. -/
lemma dictInsert_absent (k : ℤ) (v : Event) :
    ∀ l : List (ℤ × Event), k ∉ l.map Prod.fst → dictInsert k v l = l ++ [(k, v)] := by
  intro l
  induction l with
  | nil => intro _; rfl
  | cons pr rest ih =>
    intro hk
    obtain ⟨k', v'⟩ := pr
    have hne : k' ≠ k := fun h => hk (by simp [h])
    have hrest : k ∉ rest.map Prod.fst := fun h => hk (by simp [h])
    simp [dictInsert, hne, ih hrest]

/-- Building the dict from a nodup-dated event list keeps the events in
order, paired with their dates. -/
lemma foldl_dictInsert_acc :
    ∀ (events : List Event) (acc : List (ℤ × Event)),
      (events.map Event.cdate).Nodup →
      (∀ e ∈ events, e.cdate ∉ acc.map Prod.fst) →
      events.foldl (fun d e => dictInsert e.cdate e d) acc
        = acc ++ events.map (fun e => (e.cdate, e)) := by
  intro events
  induction events with
  | nil => intro acc _ _; simp
  | cons e es ih =>
    intro acc hnd hacc
    have h1 : e.cdate ∉ acc.map Prod.fst := hacc e (by simp)
    rw [List.foldl_cons, dictInsert_absent e.cdate e acc h1]
    have hnd' : (es.map Event.cdate).Nodup := (List.nodup_cons.mp (by simpa using hnd)).2
    have hhead : e.cdate ∉ es.map Event.cdate := (List.nodup_cons.mp (by simpa using hnd)).1
    have hacc' : ∀ x ∈ es, x.cdate ∉ (acc ++ [(e.cdate, e)]).map Prod.fst := by
      intro x hx
      simp only [List.map_append, List.mem_append]
      rintro (hmem | hmem)
      · exact hacc x (by simp [hx]) hmem
      · have hxe : x.cdate = e.cdate := by simpa using hmem
        exact hhead (hxe ▸ List.mem_map_of_mem Event.cdate hx)
    rw [ih (acc ++ [(e.cdate, e)]) hnd' hacc']
    simp

/-- Lookup in the dict built from a nodup-dated event list finds the unique
event with the looked-up date. -/
lemma dictGet?_map_pair :
    ∀ (events : List Event) (e : Event) (d : ℤ),
      (events.map Event.cdate).Nodup → e ∈ events → e.cdate = d →
      dictGet? d (events.map (fun x => (x.cdate, x))) = some e := by
  intro events
  induction events with
  | nil => intro e d _ he _; simp at he
  | cons a es ih =>
    intro e d hnd he hd
    rcases List.mem_cons.mp he with rfl | hes
    · rw [List.map_cons, dictGet?, List.find?_cons_of_pos _ (by simpa using hd)]
      rfl
    · have hane : a.cdate ≠ d := by
        intro h
        have hmem : a.cdate ∈ es.map Event.cdate := by
          rw [h, ← hd]
          exact List.mem_map_of_mem Event.cdate hes
        exact (List.nodup_cons.mp (by simpa using hnd)).1 hmem
      rw [List.map_cons, dictGet?, List.find?_cons_of_neg _ (by simpa using hane)]
      exact ih e d (List.nodup_cons.mp (by simpa using hnd)).2 hes hd

/-- Updating a present key rewrites exactly that entry's value. -/
lemma dictInsert_present_values (k : ℤ) (v : Event) :
    ∀ l : List (ℤ × Event), (l.map Prod.fst).Nodup → k ∈ l.map Prod.fst →
      (dictInsert k v l).map Prod.snd
        = l.map (fun p => if p.1 = k then v else p.2) := by
  intro l
  induction l with
  | nil => intro _ hk; simp at hk
  | cons pr rest ih =>
    intro hnd hk
    obtain ⟨k', v'⟩ := pr
    by_cases hkk : k' = k
    · subst hkk
      have hrest : ∀ p ∈ rest, ¬ ((p : ℤ × Event).1 = k') := by
        intro p hp h
        have : k' ∈ rest.map Prod.fst := h ▸ List.mem_map_of_mem Prod.fst hp
        exact (List.nodup_cons.mp (by simpa using hnd)).1 this
      have htail : List.map Prod.snd rest
          = rest.map (fun p => if p.1 = k' then v else p.2) :=
        List.map_congr_left fun p hp => (if_neg (hrest p hp)).symm
      simp [dictInsert, ← htail]
    · have hkrest : k ∈ rest.map Prod.fst := by
        rw [List.map_cons] at hk
        rcases List.mem_cons.mp hk with h | h
        · exact absurd h.symm hkk
        · exact h
      simp only [dictInsert, if_neg hkk, List.map_cons,
        if_neg (fun h : k' = k => hkk h)]
      rw [ih (List.nodup_cons.mp (by simpa using hnd)).2 hkrest]

/-- `apply_overrides` with a single override whose date is present patches
that event in place (then auto-fills links and sorts). -/
lemma apply_overrides_single (events : List Event) (o : Override) (e : Event)
    (hnd : (events.map Event.cdate).Nodup) (he : e ∈ events) (hed : e.cdate = o.cdate) :
    apply_overrides events [o]
      = sortEvents ((events.map (fun x =>
          if x.cdate = o.cdate then patchEv e o else x)).map ensure_event_link) := by
  have hbd0 : events.foldl (fun d e => dictInsert e.cdate e d) []
      = events.map (fun x => (x.cdate, x)) := by
    simpa using foldl_dictInsert_acc events [] hnd (by simp)
  have hkeys : (events.map (fun x => (x.cdate, x))).map Prod.fst = events.map Event.cdate := by
    rw [List.map_map]; rfl
  have hkmem : o.cdate ∈ (events.map (fun x => (x.cdate, x))).map Prod.fst := by
    rw [hkeys, ← hed]
    exact List.mem_map_of_mem Event.cdate he
  have hget : dictGet? o.cdate (events.map (fun x => (x.cdate, x))) = some e :=
    dictGet?_map_pair events e o.cdate hnd he hed
  simp only [apply_overrides, hbd0, List.foldl_cons, List.foldl_nil, overrideStep, hget]
  have hvals : (dictInsert o.cdate (patchEv e o)
        (events.map (fun x => (x.cdate, x)))).map Prod.snd
      = events.map (fun x => if x.cdate = o.cdate then patchEv e o else x) := by
    rw [dictInsert_present_values o.cdate (patchEv e o) _ (by rw [hkeys]; exact hnd) hkmem,
      List.map_map]
    rfl
  rw [hvals]

/-- Field projections of the link auto-fill. -/
lemma ensure_event_link_fields (y : Event) :
    (ensure_event_link y).desc = y.desc ∧ (ensure_event_link y).grade = y.grade ∧
      (ensure_event_link y).price = y.price ∧ (ensure_event_link y).cdate = y.cdate ∧
      (ensure_event_link y).clink
        = (if y.clink = "" then guess_hindalco_pdf_url y.cdate else y.clink) := by
  rw [ensure_event_link]
  split_ifs with h <;> simp [h]

/-- C8 counterexample: for an event with an empty link and an override for
its date supplying no field, `apply_overrides` still changes the link field
(the auto-derivation fills it with the guessed canonical URL), so not every
unsupplied field is left unchanged. -/
theorem apply_overrides_counterexample :
    sampleLinkless.clink = "" ∧ ovEmpty.desc = "" ∧ ovEmpty.grade = "" ∧
      ovEmpty.price = none ∧ ovEmpty.clink = "" ∧
      apply_overrides [sampleLinkless] [ovEmpty]
        = [{ sampleLinkless with
              clink :=
                "https://www.hindalco.com/Upload/PDF/primary-ready-reckoner-07-august-2025.pdf" }] ∧
      ("https://www.hindalco.com/Upload/PDF/primary-ready-reckoner-07-august-2025.pdf" : String)
        ≠ sampleLinkless.clink :=
  ⟨rfl, rfl, rfl, rfl, rfl, by decide, by decide⟩

/-- C8 amended: for a store containing an event `e` dated `o.cdate`,
`apply_overrides` patches exactly the fields the override supplies and
leaves every unsupplied field unchanged, with one exception forced by the
code: a link that is (or stays) empty is auto-filled with the derived
canonical URL, so the old link is preserved only when it was non-empty. -/
theorem apply_overrides_frame (events : List Event) (o : Override) (e : Event)
    (he : e ∈ events) (hed : e.cdate = o.cdate)
    (hnd : (events.map Event.cdate).Nodup) :
    ∃ ev' ∈ apply_overrides events [o],
      (∀ ev'' ∈ apply_overrides events [o], ev''.cdate = o.cdate → ev'' = ev') ∧
        ev'.cdate = o.cdate ∧
        (o.desc = "" → ev'.desc = e.desc) ∧ (o.desc ≠ "" → ev'.desc = o.desc) ∧
        (o.grade = "" → ev'.grade = e.grade) ∧ (o.grade ≠ "" → ev'.grade = o.grade) ∧
        (o.price = none → ev'.price = e.price) ∧
        (∀ p, o.price = some p → ev'.price = some p) ∧
        (o.clink = "" → e.clink ≠ "" → ev'.clink = e.clink) ∧
        (o.clink ≠ "" → ev'.clink = o.clink) := by
  have heq := apply_overrides_single events o e hnd he hed
  set f : Event → Event :=
    fun x => ensure_event_link (if x.cdate = o.cdate then patchEv e o else x) with hf
  have hcomp : events.map f
      = (events.map (fun x => if x.cdate = o.cdate then patchEv e o else x)).map
          ensure_event_link := by
    rw [List.map_map]; rfl
  have hperm : List.Perm (apply_overrides events [o]) (events.map f) := by
    rw [heq, hcomp]
    exact List.perm_insertionSort _ _
  have hfe : f e = ensure_event_link (patchEv e o) := by rw [hf]; simp [hed]
  have hpatch_cdate : (patchEv e o).cdate = e.cdate := rfl
  have hens := ensure_event_link_fields (patchEv e o)
  refine ⟨ensure_event_link (patchEv e o), ?_, ?_, ?_, ?_, ?_, ?_, ?_, ?_, ?_, ?_, ?_⟩
  · rw [hperm.mem_iff, ← hfe]
    exact List.mem_map_of_mem f he
  · intro ev'' hev'' hd''
    have hm : ev'' ∈ events.map f := hperm.mem_iff.mp hev''
    obtain ⟨x, hx, hxe⟩ := List.mem_map.mp hm
    have hxcd : (f x).cdate = x.cdate := by
      rw [hf]
      by_cases hxd : x.cdate = o.cdate
      · simp only [if_pos hxd]
        rw [(ensure_event_link_fields (patchEv e o)).2.2.2.1, hpatch_cdate, hed, hxd]
      · simp only [if_neg hxd]
        exact (ensure_event_link_fields x).2.2.2.1
    have hxod : x.cdate = o.cdate := by rw [← hxcd, hxe]; exact hd''
    have hxeq : x = e := List.inj_on_of_nodup_map hnd hx he (by rw [hxod, ← hed])
    rw [← hxe, hxeq, hfe]
  · rw [hens.2.2.2.1, hpatch_cdate, hed]
  · intro h; rw [hens.1]; simp [patchEv, h]
  · intro h; rw [hens.1]; simp [patchEv, h]
  · intro h; rw [hens.2.1]; simp [patchEv, h]
  · intro h; rw [hens.2.1]; simp [patchEv, h]
  · intro h; rw [hens.2.2.1]; simp [patchEv, h]
  · intro p h; rw [hens.2.2.1]; simp [patchEv, h]
  · intro ho hel
    have hq : (patchEv e o).clink = e.clink := by simp [patchEv, ho]
    rw [hens.2.2.2.2, hq, if_neg hel]
  · intro ho
    have hq : (patchEv e o).clink = o.clink := by simp [patchEv, ho]
    rw [hens.2.2.2.2, hq, if_neg ho]

/-- Witness for C8's amended theorem: a store with one linked event dated
20301 and an override for that date supplying only a new price. -/
theorem apply_overrides_frame_witness :
    (sampleOld ∈ [sampleOld] ∧ sampleOld.cdate = (20301 : ℤ) ∧
        ([sampleOld].map Event.cdate).Nodup) ∧
      ∃ ev' ∈ apply_overrides [sampleOld]
          [{ cdate := 20301, clink := "", price := some 245, desc := "", grade := "" }],
        (∀ ev'' ∈ apply_overrides [sampleOld]
            [{ cdate := 20301, clink := "", price := some 245, desc := "", grade := "" }],
          ev''.cdate = (20301 : ℤ) → ev'' = ev') ∧
          ev'.cdate = (20301 : ℤ) ∧
          ((("" : String) = "") → ev'.desc = sampleOld.desc) ∧
          ((("" : String) ≠ "") → ev'.desc = "") ∧
          ((("" : String) = "") → ev'.grade = sampleOld.grade) ∧
          ((("" : String) ≠ "") → ev'.grade = "") ∧
          ((some (245 : ℚ) = none) → ev'.price = sampleOld.price) ∧
          (∀ p : ℚ, some (245 : ℚ) = some p → ev'.price = some p) ∧
          ((("" : String) = "") → sampleOld.clink ≠ "" → ev'.clink = sampleOld.clink) ∧
          ((("" : String) ≠ "") → ev'.clink = "") :=
  ⟨⟨by decide, by decide, by decide⟩,
    apply_overrides_frame [sampleOld]
      { cdate := 20301, clink := "", price := some 245, desc := "", grade := "" }
      sampleOld (by decide) (by decide) (by decide)⟩

end Hindalco
